import Mathlib

/-!
Verification of a concurrent grayscale Mandelbrot plotter (Rust, src/main.rs).

The numeric model embeds the program's f64 arithmetic as exact rationals (ℚ):
every numeric operation of the source (complex multiply/add, squared norm,
the affine pixel-to-plane map) is translated operation for operation, with ℚ
standing for f64.  Machine indices (usize) are ℕ; the 64-bit range check is
made explicit where the source's parsing can overflow.  Buffers are lists of
ℕ bytes; the in-place band mutation of the source is modelled functionally:
a band renderer overwrites every byte of its band exactly once, so a band's
final contents is a pure function of its bounds and corners.
-/

namespace Mandelbrot

/-- Complex number, as in num::Complex<f64>: a pair (re, im), modelled over ℚ. -/
structure Cplx where
  re : ℚ
  im : ℚ
deriving DecidableEq, Repr

/-- Complex addition (num::Complex + operator). -/
def cadd (a b : Cplx) : Cplx := ⟨a.re + b.re, a.im + b.im⟩

/-- Complex multiplication (num::Complex * operator). -/
def cmul (a b : Cplx) : Cplx :=
  ⟨a.re * b.re - a.im * b.im, a.re * b.im + a.im * b.re⟩

/-- Squared norm: num::Complex::norm_sqr, re² + im². -/
def norm_sqr (z : Cplx) : ℚ := z.re * z.re + z.im * z.im

/-- The loop body of escape_time: `fuel` iterations remain out of the
original limit, `i` is the current iteration index, `z` the current value.
Each step performs z ← z*z + c and tests norm_sqr z > 4.0, exactly as the
source's for-loop over 0..limit. -/
def escapeAux (c : Cplx) : ℕ → ℕ → Cplx → Option ℕ
  | 0, _, _ => none
  | fuel + 1, i, z =>
    let z2 := cadd (cmul z z) c
    if 4 < norm_sqr z2 then some i else escapeAux c fuel (i + 1) z2

/-- fn escape_time(c: Complex<f64>, limit: u32) -> Option<u32>:
start at z = 0, iterate z ← z*z + c up to limit times, returning the first
index i at which norm_sqr(z) > 4.0, or None if the loop completes. -/
def escape_time (c : Cplx) (limit : ℕ) : Option ℕ :=
  escapeAux c limit 0 ⟨0, 0⟩

/-- The orbit of the Mandelbrot recurrence: zIter c 0 = 0 and
zIter c (n+1) = (zIter c n)² + c.  This is the reference trajectory the
loop of escape_time walks through. -/
def zIter (c : Cplx) : ℕ → Cplx
  | 0 => ⟨0, 0⟩
  | n + 1 => cadd (cmul (zIter c n) (zIter c n)) c

/-- fn pixel_to_point(bounds, pixel, upper_left, lower_right) -> Complex<f64>:
the affine map from pixel (column, row) in an image of the given bounds to
the complex plane rectangle spanned by the two corners.  Note the flipped
imaginary axis: row grows downward, im grows upward. -/
def pixel_to_point (bounds : ℕ × ℕ) (pixel : ℕ × ℕ)
    (upper_left lower_right : Cplx) : Cplx :=
  let width : ℚ := lower_right.re - upper_left.re
  let height : ℚ := upper_left.im - lower_right.im
  ⟨upper_left.re + (pixel.1 : ℚ) / (bounds.1 : ℚ) * width,
   upper_left.im - (pixel.2 : ℚ) / (bounds.2 : ℚ) * height⟩

/-- The byte render writes for one pixel: 0 when escape_time returns None,
otherwise 255 - count computed in u8 (count is cast as u8, i.e. mod 256;
the subtraction never underflows because count < 255, proved below). -/
def pixelByte (point : Cplx) : ℕ :=
  match escape_time point 255 with
  | none => 0
  | some count => 255 - count % 256

/-- fn render(pixels, bounds, upper_left, lower_right): fills the buffer in
row-major order, pixel (column, row) at index column + bounds.0 * row.  The
source mutates a slice whose length is asserted to be bounds.0 * bounds.1
and writes every index exactly once, so the final buffer contents is this
list. -/
def render (bounds : ℕ × ℕ) (upper_left lower_right : Cplx) : List ℕ :=
  (List.range bounds.2).flatMap fun row =>
    (List.range bounds.1).map fun column =>
      pixelByte (pixel_to_point bounds (column, row) upper_left lower_right)

/-- The assert!(pixels.len() == bounds.0 * bounds.1) guard at the top of
render: the call succeeds only when the supplied buffer length matches. -/
def renderChecked (buflen : ℕ) (bounds : ℕ × ℕ)
    (upper_left lower_right : Cplx) : Option (List ℕ) :=
  if buflen = bounds.1 * bounds.2 then some (render bounds upper_left lower_right)
  else none

/-- slice::chunks_mut(k): split a list into consecutive chunks of k
elements, the last possibly shorter.  Rust panics when k = 0; here k = 0
yields [] and every theorem about chunks assumes a positive chunk size. -/
def chunksOf {α : Type*} (k : ℕ) : List α → List (List α)
  | [] => []
  | a :: rest =>
    if k = 0 then []
    else (a :: rest).take k :: chunksOf k ((a :: rest).drop k)
termination_by l => l.length
decreasing_by
  simp only [List.length_drop, List.length_cons]
  omega

/-- let threads = 8: the hard-coded worker count of main. -/
def threads : ℕ := 8

/-- let rows_per_band = bounds.1 / threads + 1: floor division plus one,
generalized over the worker count exactly as written in main. -/
def rows_per_band (total_rows worker_count : ℕ) : ℕ :=
  total_rows / worker_count + 1

/-- One band's rendered contents as main dispatches it: for band index i
with byte length blen (from chunks_mut), top = rows_per_band * i, the
height is recovered as blen / width, and the band's own corners come from
mapping its top-left pixel (0, top) and bottom-right pixel
(width, top + height) through the full-image bounds and viewport. -/
def bandRender (bounds : ℕ × ℕ) (worker_count : ℕ)
    (upper_left lower_right : Cplx) (i blen : ℕ) : List ℕ :=
  let rpb := rows_per_band bounds.2 worker_count
  let top := rpb * i
  let height := blen / bounds.1
  render (bounds.1, height)
    (pixel_to_point bounds (0, top) upper_left lower_right)
    (pixel_to_point bounds (bounds.1, top + height) upper_left lower_right)

/-- The Scheduler of main: allocate the zeroed buffer of width * height
bytes, split it into chunks of rows_per_band * width bytes, and render each
chunk concurrently.  Each task owns its chunk exclusively and overwrites
every one of its bytes exactly once, so after the join the buffer is the
concatenation of the band renders in band order. -/
def scheduledRender (bounds : ℕ × ℕ) (worker_count : ℕ)
    (upper_left lower_right : Cplx) : List ℕ :=
  let rpb := rows_per_band bounds.2 worker_count
  let pixels : List ℕ := List.replicate (bounds.1 * bounds.2) 0
  let bands := chunksOf (rpb * bounds.1) pixels
  (bands.enum.map fun p =>
      bandRender bounds worker_count upper_left lower_right p.1 p.2.length).flatten

/-- Value of a digit string (most significant first), as the fold inside
integer FromStr accumulates it. -/
def digitsToNat (l : List Char) : ℕ :=
  l.foldl (fun acc c => acc * 10 + (c.toNat - 48)) 0

/-- The optional leading '+' sign accepted by unsigned FromStr. -/
def stripPlus : List Char → List Char
  | '+' :: rest => rest
  | other => other

/-- usize::from_str: an optional leading '+', then one or more ASCII
digits, and the value must fit in 64-bit usize (overflow is a parse
error).  A leading '-' or any other character is rejected. -/
def parseUsize (s : List Char) : Option ℕ :=
  if stripPlus s ≠ [] ∧ (stripPlus s).all Char.isDigit = true ∧
      digitsToNat (stripPlus s) < 2 ^ 64 then
    some (digitsToNat (stripPlus s))
  else none

/-- fn parse_pair<T>(s, separator): find the first occurrence of the
separator, split around it, and parse both sides with T::from_str,
succeeding only when both sides parse (the source's nested match over the
(Ok, Ok) pair); here instantiated at T = usize as main does for the
dimension argument. -/
def parse_pair (s : List Char) (separator : Char) : Option (ℕ × ℕ) :=
  (s.findIdx? (fun c => c == separator)).bind fun index =>
    (parseUsize (s.take index)).bind fun l =>
      (parseUsize (s.drop (index + 1))).map fun r => (l, r)

/-- The Mapper formula exactly as the spec words it: real = upper_left.real
+ (column/bounds.width)*width and imag = upper_left.imag −
(row/bounds.height)*height, with width and height the signed corner
differences.  Stated separately so the source's pixel_to_point can be
compared against it. -/
def pixel_to_point_spec (bounds : ℕ × ℕ) (pixel : ℕ × ℕ)
    (upper_left lower_right : Cplx) : Cplx :=
  ⟨upper_left.re + (pixel.1 : ℚ) / (bounds.1 : ℚ) * (lower_right.re - upper_left.re),
   upper_left.im - (pixel.2 : ℚ) / (bounds.2 : ℚ) * (upper_left.im - lower_right.im)⟩

/-- The rows of the image grouped into the Scheduler's bands: chunks_mut
splits the buffer into rows_per_band * width byte chunks, i.e. groups of
rows_per_band whole rows, the last group possibly smaller. -/
def rowBands (h worker_count : ℕ) : List (List ℕ) :=
  chunksOf (rows_per_band h worker_count) (List.range h)

/-! ### The escape-time loop against the orbit of the recurrence -/

theorem zIter_succ (c : Cplx) (n : ℕ) :
    zIter c (n + 1) = cadd (cmul (zIter c n) (zIter c n)) c := rfl

/-- Both outcomes of the loop body, characterized against the orbit: started
at iteration index k with z = zIter c k and fuel iterations remaining, the
loop returns some i exactly when i is the first index in [k, k + fuel) whose
updated value has squared norm above 4, and none exactly when no index in
that window does. -/
theorem escapeAux_spec (c : Cplx) :
    ∀ fuel k : ℕ,
      (∀ i, escapeAux c fuel k (zIter c k) = some i ↔
        (k ≤ i ∧ i < k + fuel ∧ 4 < norm_sqr (zIter c (i + 1)) ∧
         ∀ j, k ≤ j → j < i → norm_sqr (zIter c (j + 1)) ≤ 4)) ∧
      (escapeAux c fuel k (zIter c k) = none ↔
        ∀ j, k ≤ j → j < k + fuel → norm_sqr (zIter c (j + 1)) ≤ 4) := by
  intro fuel
  induction fuel with
  | zero =>
    intro k
    constructor
    · intro i
      simp only [escapeAux]
      constructor
      · intro hcontra
        exact Option.noConfusion hcontra
      · rintro ⟨h1, h2, -⟩
        omega
    · simp only [escapeAux, true_iff]
      intro j h1 h2
      omega
  | succ fuel ih =>
    intro k
    have hz : cadd (cmul (zIter c k) (zIter c k)) c = zIter c (k + 1) := rfl
    by_cases hesc : 4 < norm_sqr (zIter c (k + 1))
    · have heq : escapeAux c (fuel + 1) k (zIter c k) = some k := by
        simp only [escapeAux, hz, if_pos hesc]
      constructor
      · intro i
        rw [heq]
        constructor
        · intro hsome
          have hik : i = k := (Option.some.injEq _ _).mp hsome.symm
          subst hik
          exact ⟨le_refl i, by omega, hesc, fun j hj hj' => absurd (lt_of_le_of_lt hj hj') (lt_irrefl i)⟩
        · rintro ⟨h1, h2, h3, h4⟩
          rcases Nat.eq_or_lt_of_le h1 with hik | hik
          · rw [hik]
          · exact absurd hesc (not_lt.mpr (h4 k le_rfl hik))
      · rw [heq]
        constructor
        · intro hcontra
          exact Option.noConfusion hcontra
        · intro hall
          exact absurd hesc (not_lt.mpr (hall k le_rfl (by omega)))
    · have heq : escapeAux c (fuel + 1) k (zIter c k) =
          escapeAux c fuel (k + 1) (zIter c (k + 1)) := by
        simp only [escapeAux, hz, if_neg hesc]
      obtain ⟨ihs, ihn⟩ := ih (k + 1)
      constructor
      · intro i
        rw [heq, ihs i]
        constructor
        · rintro ⟨h1, h2, h3, h4⟩
          refine ⟨by omega, by omega, h3, fun j hj hj' => ?_⟩
          rcases Nat.eq_or_lt_of_le hj with hjk | hjk
          · rw [← hjk]
            exact not_lt.mp hesc
          · exact h4 j hjk hj'
        · rintro ⟨h1, h2, h3, h4⟩
          have hik : i ≠ k := by
            intro hik
            rw [hik] at h3
            exact hesc h3
          exact ⟨by omega, by omega, h3, fun j hj hj' => h4 j (by omega) hj'⟩
      · rw [heq, ihn]
        constructor
        · intro hall j hj hj'
          rcases Nat.eq_or_lt_of_le hj with hjk | hjk
          · rw [← hjk]
            exact not_lt.mp hesc
          · exact hall j hjk (by omega)
        · intro hall j hj hj'
          exact hall j (by omega) (by omega)

/-- escape_time returns some i exactly when i is the first 0-based iteration
index below limit after whose update the squared norm exceeds 4. -/
theorem escape_time_some_iff (c : Cplx) (limit i : ℕ) :
    escape_time c limit = some i ↔
      (i < limit ∧ 4 < norm_sqr (zIter c (i + 1)) ∧
       ∀ j, j < i → norm_sqr (zIter c (j + 1)) ≤ 4) := by
  have h := ((escapeAux_spec c limit 0).1 i)
  rw [show escape_time c limit = escapeAux c limit 0 (zIter c 0) from rfl, h]
  constructor
  · rintro ⟨-, h2, h3, h4⟩
    exact ⟨by omega, h3, fun j hj => h4 j (Nat.zero_le j) hj⟩
  · rintro ⟨h2, h3, h4⟩
    exact ⟨Nat.zero_le i, by omega, h3, fun j _ hj => h4 j hj⟩

/-- escape_time returns none exactly when no iterate among the first limit
updates leaves the bailout disc. -/
theorem escape_time_none_iff (c : Cplx) (limit : ℕ) :
    escape_time c limit = none ↔
      ∀ j, j < limit → norm_sqr (zIter c (j + 1)) ≤ 4 := by
  have h := (escapeAux_spec c limit 0).2
  rw [show escape_time c limit = escapeAux c limit 0 (zIter c 0) from rfl, h]
  constructor
  · intro hall j hj
    exact hall j (Nat.zero_le j) (by omega)
  · intro hall j _ hj
    exact hall j (by omega)

/-- A returned escape index is always below the limit. -/
theorem escape_time_some_lt (c : Cplx) (limit i : ℕ)
    (h : escape_time c limit = some i) : i < limit :=
  ((escape_time_some_iff c limit i).mp h).1

/-- The orbit of c = 0 is constantly 0. -/
theorem zIter_zero (n : ℕ) : zIter ⟨0, 0⟩ n = ⟨0, 0⟩ := by
  induction n with
  | zero => rfl
  | succ n ih =>
    rw [zIter_succ, ih]
    simp [cadd, cmul]

/-! ### Claim C4, C9, C10 -/

/-- C4: escape_time(c, limit) iterates z ← z*z + c starting from z = 0 and
returns some i where i is the 0-based index of the first iteration after
whose update |z|² > 4 holds, and returns none if no such index exists among
the first limit iterations. -/
theorem claim_C4_escape_time_first_escape (c : Cplx) (limit : ℕ) :
    (∀ i, escape_time c limit = some i ↔
      (i < limit ∧ 4 < norm_sqr (zIter c (i + 1)) ∧
       ∀ j, j < i → norm_sqr (zIter c (j + 1)) ≤ 4)) ∧
    (escape_time c limit = none ↔
      ∀ j, j < limit → norm_sqr (zIter c (j + 1)) ≤ 4) :=
  ⟨fun i => escape_time_some_iff c limit i, escape_time_none_iff c limit⟩

/-- The first iterate of c = 3 + 0i is c itself, with squared norm 9. -/
theorem norm_sqr_zIter_three (n : ℕ) (hn : n = 0 + 1) :
    norm_sqr (zIter ⟨3, 0⟩ n) = 9 := by
  subst hn
  rw [zIter_succ, show zIter (⟨3, 0⟩ : Cplx) 0 = ⟨0, 0⟩ from rfl]
  norm_num [cadd, cmul, norm_sqr]

/-- Witness for C4 at c = 3 + 0i, limit = 1: the first update gives z = c
with |z|² = 9 > 4, so escape_time returns some 0. -/
theorem claim_C4_escape_time_first_escape_witness :
    escape_time ⟨3, 0⟩ 1 = some 0 :=
  ((claim_C4_escape_time_first_escape ⟨3, 0⟩ 1).1 0).mpr
    ⟨by norm_num, by rw [norm_sqr_zIter_three (0 + 1) rfl]; norm_num,
     fun j hj => absurd hj (Nat.not_lt_zero j)⟩

/-- C9: for c = 0 and every positive limit, escape_time returns none,
because the orbit stays at 0 forever. -/
theorem claim_C9_origin_never_escapes (limit : ℕ) (h : 0 < limit) :
    escape_time ⟨0, 0⟩ limit = none := by
  rw [escape_time_none_iff]
  intro j hj
  rw [zIter_zero]
  norm_num [norm_sqr]

/-- Witness for C9 at the render limit 255. -/
theorem claim_C9_origin_never_escapes_witness :
    0 < 255 ∧ escape_time ⟨0, 0⟩ 255 = none :=
  ⟨by norm_num, claim_C9_origin_never_escapes 255 (by norm_num)⟩

/-- C10: with the fixed limit 255 used by render, an escape count is always
≤ 254, the written byte 255 − count never underflows and lies in 1..=255,
and the byte 0 is written exactly when escape_time returns none. -/
theorem claim_C10_byte_range (c : Cplx) :
    (∀ count, escape_time c 255 = some count →
      count ≤ 254 ∧ pixelByte c = 255 - count ∧
      1 ≤ pixelByte c ∧ pixelByte c ≤ 255) ∧
    (pixelByte c = 0 ↔ escape_time c 255 = none) := by
  constructor
  · intro count hcount
    have hlt : count < 255 := escape_time_some_lt c 255 count hcount
    have hmod : count % 256 = count := Nat.mod_eq_of_lt (by omega)
    have hpb : pixelByte c = 255 - count := by
      simp only [pixelByte, hcount, hmod]
    exact ⟨by omega, hpb, by omega, by omega⟩
  · cases hcase : escape_time c 255 with
    | none => simp [pixelByte, hcase]
    | some count =>
      have hlt : count < 255 := escape_time_some_lt c 255 count hcase
      have hmod : count % 256 = count := Nat.mod_eq_of_lt (by omega)
      simp only [pixelByte, hcase, hmod]
      constructor
      · intro h0
        omega
      · intro hc
        exact Option.noConfusion hc

/-- c = 3 + 0i escapes at count 0 under the render limit 255. -/
theorem escape_time_three : escape_time ⟨3, 0⟩ 255 = some 0 :=
  (escape_time_some_iff ⟨3, 0⟩ 255 0).mpr
    ⟨by norm_num, by rw [norm_sqr_zIter_three (0 + 1) rfl]; norm_num,
     fun j hj => absurd hj (Nat.not_lt_zero j)⟩

/-- Witness for C10 at c = 3 + 0i, which escapes at count 0: the written
byte is 255. -/
theorem claim_C10_byte_range_witness :
    pixelByte ⟨3, 0⟩ = 255 - 0 ∧ (0 : ℕ) ≤ 254 :=
  ⟨((claim_C10_byte_range ⟨3, 0⟩).1 0 escape_time_three).2.1,
   ((claim_C10_byte_range ⟨3, 0⟩).1 0 escape_time_three).1⟩

/-! ### Claim C5, C7: the coordinate Mapper -/

/-- A convex-style combination a + t (b − a) with t ∈ [0, 1] stays between
a and b. -/
theorem between_convex (a b t : ℚ) (h0 : 0 ≤ t) (h1 : t ≤ 1) :
    min a b ≤ a + t * (b - a) ∧ a + t * (b - a) ≤ max a b := by
  rcases le_total a b with hab | hab
  · rw [min_eq_left hab, max_eq_right hab]
    constructor <;> nlinarith
  · rw [min_eq_right hab, max_eq_left hab]
    constructor <;> nlinarith

/-- The rendered buffer has exactly width * height bytes. -/
theorem render_length (bounds : ℕ × ℕ) (u l : Cplx) :
    (render bounds u l).length = bounds.1 * bounds.2 := by
  simp [render, List.length_flatMap, Function.comp_def, List.map_const']
  exact Nat.mul_comm _ _

/-- C5: for bounds with width ≥ 1 and height ≥ 1 and any pixel inside the
image, the mapped point lies component-wise between the two corners,
whichever way they are ordered. -/
theorem claim_C5_mapper_in_rectangle (w h col row : ℕ) (u l : Cplx)
    (hw : 1 ≤ w) (hh : 1 ≤ h) (hcol : col < w) (hrow : row < h) :
    (min u.re l.re ≤ (pixel_to_point (w, h) (col, row) u l).re ∧
      (pixel_to_point (w, h) (col, row) u l).re ≤ max u.re l.re) ∧
    (min u.im l.im ≤ (pixel_to_point (w, h) (col, row) u l).im ∧
      (pixel_to_point (w, h) (col, row) u l).im ≤ max u.im l.im) := by
  have hwq : (0 : ℚ) < (w : ℚ) := by exact_mod_cast hw
  have hhq : (0 : ℚ) < (h : ℚ) := by exact_mod_cast hh
  have ht0 : (0 : ℚ) ≤ (col : ℚ) / (w : ℚ) :=
    div_nonneg (Nat.cast_nonneg col) (le_of_lt hwq)
  have ht1 : (col : ℚ) / (w : ℚ) ≤ 1 := by
    rw [div_le_one hwq]
    exact_mod_cast Nat.le_of_lt hcol
  have hs0 : (0 : ℚ) ≤ (row : ℚ) / (h : ℚ) :=
    div_nonneg (Nat.cast_nonneg row) (le_of_lt hhq)
  have hs1 : (row : ℚ) / (h : ℚ) ≤ 1 := by
    rw [div_le_one hhq]
    exact_mod_cast Nat.le_of_lt hrow
  constructor
  · have hre : (pixel_to_point (w, h) (col, row) u l).re =
        u.re + (col : ℚ) / (w : ℚ) * (l.re - u.re) := rfl
    rw [hre]
    exact between_convex u.re l.re _ ht0 ht1
  · have him : (pixel_to_point (w, h) (col, row) u l).im =
        u.im + (row : ℚ) / (h : ℚ) * (l.im - u.im) := by
      show u.im - (row : ℚ) / (h : ℚ) * (u.im - l.im) =
        u.im + (row : ℚ) / (h : ℚ) * (l.im - u.im)
      ring
    rw [him]
    exact between_convex u.im l.im _ hs0 hs1

/-- Witness for C5 at the spec's concrete scenario: pixel (0, 0) of a
100 × 100 image with corners (-1.20, 0.35) and (-1.0, 0.20). -/
theorem claim_C5_mapper_in_rectangle_witness :
    (min (-6/5 : ℚ) (-1) ≤ (pixel_to_point (100, 100) (0, 0) ⟨-6/5, 7/20⟩ ⟨-1, 1/5⟩).re ∧
      (pixel_to_point (100, 100) (0, 0) ⟨-6/5, 7/20⟩ ⟨-1, 1/5⟩).re ≤ max (-6/5 : ℚ) (-1)) ∧
    (min (7/20 : ℚ) (1/5) ≤ (pixel_to_point (100, 100) (0, 0) ⟨-6/5, 7/20⟩ ⟨-1, 1/5⟩).im ∧
      (pixel_to_point (100, 100) (0, 0) ⟨-6/5, 7/20⟩ ⟨-1, 1/5⟩).im ≤ max (7/20 : ℚ) (1/5)) :=
  claim_C5_mapper_in_rectangle 100 100 0 0 ⟨-6/5, 7/20⟩ ⟨-1, 1/5⟩
    (by norm_num) (by norm_num) (by norm_num) (by norm_num)

/-- C7: the source's pixel_to_point computes exactly the spec's affine
formula, pixel (0, 0) of the spec's concrete scenario maps exactly to the
upper-left corner (-1.20, 0.35), and the output buffer for the 100 × 100
scenario holds exactly 10000 bytes. -/
theorem claim_C7_mapper_formula_and_scenario :
    (∀ (bounds pixel : ℕ × ℕ) (u l : Cplx),
      pixel_to_point bounds pixel u l = pixel_to_point_spec bounds pixel u l) ∧
    pixel_to_point (100, 100) (0, 0) ⟨-6/5, 7/20⟩ ⟨-1, 1/5⟩ = ⟨-6/5, 7/20⟩ ∧
    (List.replicate (100 * 100) (0 : ℕ)).length = 10000 ∧
    (render (100, 100) ⟨-6/5, 7/20⟩ ⟨-1, 1/5⟩).length = 10000 := by
  refine ⟨fun bounds pixel u l => rfl, ?_,
    by rw [List.length_replicate], ?_⟩
  · show Cplx.mk (-6/5 + (0 : ℚ) / 100 * (-1 - -6/5)) (7/20 - (0 : ℚ) / 100 * (7/20 - 1/5)) =
      Cplx.mk (-6/5) (7/20)
    norm_num
  · rw [render_length]
    norm_num

/-! ### chunks_mut lemmas -/

theorem chunksOf_nil {α : Type*} (k : ℕ) : chunksOf k ([] : List α) = [] := by
  simp [chunksOf]

theorem chunksOf_cons_eq {α : Type*} (k : ℕ) (l : List α) (hk : k ≠ 0)
    (hl : l ≠ []) : chunksOf k l = l.take k :: chunksOf k (l.drop k) := by
  cases l with
  | nil => exact absurd rfl hl
  | cons a rest => simp [chunksOf, hk]

theorem chunksOf_flatten_bounded {α : Type*} (k : ℕ) (hk : k ≠ 0) :
    ∀ (n : ℕ) (l : List α), l.length ≤ n → (chunksOf k l).flatten = l := by
  intro n
  induction n with
  | zero =>
    intro l hl
    have hnil : l = [] := List.eq_nil_of_length_eq_zero (by omega)
    rw [hnil, chunksOf_nil]
    rfl
  | succ n ih =>
    intro l hl
    cases l with
    | nil =>
      rw [chunksOf_nil]
      rfl
    | cons a rest =>
      rw [chunksOf_cons_eq k _ hk (List.cons_ne_nil a rest), List.flatten_cons,
        ih ((a :: rest).drop k) (by rw [List.length_drop]; simp at hl ⊢; omega)]
      exact List.take_append_drop k _

/-- Joining the chunks gives back the original buffer: the bands cover the
whole buffer exactly once, in order. -/
theorem flatten_chunksOf {α : Type*} (k : ℕ) (hk : k ≠ 0) (l : List α) :
    (chunksOf k l).flatten = l :=
  chunksOf_flatten_bounded k hk l.length l le_rfl

theorem take_range'_eq : ∀ (n s m : ℕ),
    (List.range' s n).take m = List.range' s (min m n) := by
  intro n
  induction n with
  | zero =>
    intro s m
    simp
  | succ n ih =>
    intro s m
    cases m with
    | zero => simp
    | succ m =>
      show (s :: List.range' (s + 1) n).take (m + 1) = List.range' s (min (m + 1) (n + 1))
      rw [List.take_succ_cons, ih (s + 1) m, Nat.succ_min_succ]
      rfl

theorem drop_range'_eq : ∀ (n s m : ℕ),
    (List.range' s n).drop m = List.range' (s + m) (n - m) := by
  intro n
  induction n with
  | zero =>
    intro s m
    simp
  | succ n ih =>
    intro s m
    cases m with
    | zero => simp
    | succ m =>
      show (s :: List.range' (s + 1) n).drop (m + 1) = List.range' (s + (m + 1)) (n + 1 - (m + 1))
      rw [List.drop_succ_cons, ih (s + 1) m]
      congr 1 <;> omega

theorem range'_ne_nil_of_pos (s n : ℕ) (hn : 0 < n) : List.range' s n ≠ [] := by
  cases n with
  | zero => omega
  | succ m => exact List.cons_ne_nil _ _

/-- The number of chunks is the ceiling of length / chunk size. -/
theorem chunksOf_range'_length (k : ℕ) (hk : k ≠ 0) :
    ∀ (n s : ℕ), (chunksOf k (List.range' s n)).length = (n + k - 1) / k := by
  intro n s
  induction n using Nat.strong_induction_on generalizing s with
  | _ n ih =>
    rcases Nat.eq_zero_or_pos n with hn | hn
    · subst hn
      rw [show List.range' s 0 = [] from rfl, chunksOf_nil]
      show 0 = (0 + k - 1) / k
      rw [Nat.div_eq_of_lt (by omega)]
    · rw [chunksOf_cons_eq k _ hk (range'_ne_nil_of_pos s n hn), List.length_cons,
        drop_range'_eq n s k, ih (n - k) (by omega) (s + k)]
      rcases Nat.lt_or_ge n k with hnk | hnk
      · have h1 : n - k + k - 1 = k - 1 := by omega
        have h2 : 1 ≤ (n + k - 1) / k := (Nat.le_div_iff_mul_le (by omega)).mpr (by omega)
        have h3 : (n + k - 1) / k < 2 := (Nat.div_lt_iff_lt_mul (by omega)).mpr (by omega)
        rw [h1, Nat.div_eq_of_lt (by omega)]
        omega
      · have h1 : n - k + k - 1 = n - 1 := by omega
        have h2 : n + k - 1 = (n - 1) + k := by omega
        rw [h1, h2, Nat.add_div_right _ (by omega)]

/-- Chunk i of range' s n is the run of k row indices starting at s + k*i,
clipped at the end of the range. -/
theorem chunksOf_range'_getElem (k : ℕ) (hk : k ≠ 0) :
    ∀ (n s i : ℕ) (hi : i < (chunksOf k (List.range' s n)).length),
      (chunksOf k (List.range' s n))[i] =
        List.range' (s + k * i) (min k (n - k * i)) := by
  intro n s i
  induction n using Nat.strong_induction_on generalizing s i with
  | _ n ih =>
    intro hi
    rcases Nat.eq_zero_or_pos n with hn | hn
    · subst hn
      rw [show List.range' s 0 = [] from rfl, chunksOf_nil] at hi
      exact absurd hi (by simp)
    · revert hi
      rw [chunksOf_cons_eq k _ hk (range'_ne_nil_of_pos s n hn),
        take_range'_eq n s k, drop_range'_eq n s k]
      intro hi
      cases i with
      | zero =>
        rw [List.getElem_cons_zero]
        simp
      | succ i =>
        rw [List.getElem_cons_succ]
        rw [ih (n - k) (by omega) (s + k) i (by exact Nat.lt_of_succ_lt_succ hi)]
        have hm : k * (i + 1) = k * i + k := Nat.mul_succ k i
        congr 1 <;> omega

/-- Every chunk's length is a multiple of d whenever both the chunk size
and the buffer length are. -/
theorem chunksOf_dvd_length_bounded {α : Type*} (d k : ℕ) (hdk : d ∣ k) :
    ∀ (n : ℕ) (l : List α), l.length ≤ n → d ∣ l.length →
      ∀ band ∈ chunksOf k l, d ∣ band.length := by
  intro n
  induction n with
  | zero =>
    intro l hl hdl band hband
    have hnil : l = [] := List.eq_nil_of_length_eq_zero (by omega)
    rw [hnil, chunksOf_nil] at hband
    exact absurd hband (by simp)
  | succ n ih =>
    intro l hl hdl band hband
    rcases eq_or_ne k 0 with hk | hk
    · subst hk
      cases l with
      | nil => exact absurd hband (by simp [chunksOf_nil])
      | cons a rest => exact absurd hband (by simp [chunksOf])
    · cases l with
      | nil => exact absurd hband (by simp [chunksOf_nil])
      | cons a rest =>
        rw [chunksOf_cons_eq k _ hk (List.cons_ne_nil a rest)] at hband
        rcases List.mem_cons.mp hband with hband | hband
        · subst hband
          rw [List.length_take]
          rcases Nat.le_total k (a :: rest).length with hle | hle
          · rw [min_eq_left hle]
            exact hdk
          · rw [min_eq_right hle]
            exact hdl
        · refine ih ((a :: rest).drop k) ?_ ?_ band hband
          · rw [List.length_drop]
            simp at hl ⊢
            omega
          · rw [List.length_drop]
            exact Nat.dvd_sub' hdl hdk

theorem chunksOf_dvd_length {α : Type*} (d k : ℕ) (hdk : d ∣ k) (l : List α)
    (hdl : d ∣ l.length) : ∀ band ∈ chunksOf k l, d ∣ band.length :=
  chunksOf_dvd_length_bounded d k hdk l.length l le_rfl hdl

/-! ### Claim C1, C3, C6: the Scheduler's partition -/

/-- Counterexample to C1: for total_rows = 8 and worker_count = 8 the code
computes rows_per_band = 8 / 8 + 1 = 2, while ceil(8 / 8) = 1. -/
theorem claim_C1_counterexample :
    rows_per_band 8 8 = 2 ∧ (8 + 8 - 1) / 8 = 1 ∧
      rows_per_band 8 8 ≠ (8 + 8 - 1) / 8 := by
  refine ⟨rfl, rfl, ?_⟩
  decide

/-- C1 (amended): rows_per_band is floor(total_rows / worker_count) + 1,
which agrees with ceil(total_rows / worker_count) exactly when worker_count
does not divide total_rows — as in the spec's example total_rows = 10,
worker_count = 3, where the bands are [4, 4, 2]. -/
theorem claim_C1_rows_per_band (h w : ℕ) (hw : 0 < w) :
    rows_per_band h w = h / w + 1 ∧
    (rows_per_band h w = (h + w - 1) / w ↔ ¬ w ∣ h) := by
  refine ⟨rfl, ?_⟩
  have hmod := Nat.div_add_mod h w
  have hrlt : h % w < w := Nat.mod_lt h hw
  constructor
  · intro heq hdvd
    have hr0 : h % w = 0 := Nat.mod_eq_zero_of_dvd hdvd
    have hceil : (h + w - 1) / w = h / w := by
      have h1 : h + w - 1 = w * (h / w) + (w - 1) := by omega
      rw [h1, Nat.mul_add_div hw, Nat.div_eq_of_lt (show w - 1 < w by omega)]
      rfl
    have hfloor : rows_per_band h w = h / w + 1 := rfl
    rw [hfloor, hceil] at heq
    omega
  · intro hndvd
    have hr0 : h % w ≠ 0 := fun h0 => hndvd (Nat.dvd_of_mod_eq_zero h0)
    have hmulsucc : w * (h / w + 1) = w * (h / w) + w := by ring
    have h1 : h + w - 1 = w * (h / w + 1) + (h % w - 1) := by omega
    have hceil : (h + w - 1) / w = h / w + 1 := by
      rw [h1, Nat.mul_add_div hw, Nat.div_eq_of_lt (show h % w - 1 < w by omega)]
    rw [hceil]
    rfl

/-- Witness for C1: at the spec's example (10, 3) the code's formula does
agree with the ceiling (3 does not divide 10), and the row chunks have
heights [4, 4, 2] covering rows 0-3, 4-7, 8-9. -/
theorem claim_C1_rows_per_band_witness :
    rows_per_band 10 3 = (10 + 3 - 1) / 3 ∧
    rows_per_band 10 3 = 4 ∧
    chunksOf (rows_per_band 10 3) (List.range 10) =
      [[0, 1, 2, 3], [4, 5, 6, 7], [8, 9]] := by
  refine ⟨(claim_C1_rows_per_band 10 3 (by norm_num)).2.mpr (by decide), rfl, ?_⟩
  show chunksOf 4 (List.range 10) = [[0, 1, 2, 3], [4, 5, 6, 7], [8, 9]]
  simp [chunksOf, List.range_succ]

/-- C3: the allocated buffer has length width * height, and every band the
Scheduler carves out of it with chunks_mut has a length that is an exact
multiple of the width, so the band buffer length equals
band_bounds.width * band_bounds.height and render's fatal length assertion
never fires on a Scheduler call. -/
theorem claim_C3_assert_never_fires (w h workers : ℕ) (u l : Cplx)
    (hw : 0 < w) (hworkers : 0 < workers) :
    (List.replicate (w * h) (0 : ℕ)).length = w * h ∧
    ∀ band ∈ chunksOf (rows_per_band h workers * w) (List.replicate (w * h) (0 : ℕ)),
      band.length = w * (band.length / w) ∧
      (renderChecked band.length (w, band.length / w) u l).isSome = true := by
  constructor
  · exact List.length_replicate _ _
  · intro band hband
    have hdvd : w ∣ band.length := by
      refine chunksOf_dvd_length w (rows_per_band h workers * w)
        (dvd_mul_left w _) _ ?_ band hband
      rw [List.length_replicate]
      exact dvd_mul_right w h
    have hlen : band.length = w * (band.length / w) :=
      (Nat.mul_div_cancel' hdvd).symm
    refine ⟨hlen, ?_⟩
    rw [renderChecked, if_pos hlen]
    rfl

/-- Witness for C3 at width 3, height 2, the code's 8 workers. -/
theorem claim_C3_assert_never_fires_witness :
    (List.replicate (3 * 2) (0 : ℕ)).length = 3 * 2 ∧
    ∀ band ∈ chunksOf (rows_per_band 2 8 * 3) (List.replicate (3 * 2) (0 : ℕ)),
      band.length = 3 * (band.length / 3) ∧
      (renderChecked band.length (3, band.length / 3) ⟨3, 1⟩ ⟨4, 0⟩).isSome = true :=
  claim_C3_assert_never_fires 3 2 8 ⟨3, 1⟩ ⟨4, 0⟩ (by norm_num) (by norm_num)

/-- C6: the Scheduler's bands are contiguous runs of whole rows; their
concatenation is exactly the row list 0, …, h−1 (every row covered exactly
once, no gap, no overlap, nothing beyond the buffer); band i is the run of
rows starting at row offset rows_per_band * i, clipped at the image end;
and every band except possibly the last has exactly rows_per_band rows. -/
theorem claim_C6_bands_cover (h workers : ℕ) (hworkers : 0 < workers) :
    (rowBands h workers).flatten = List.range h ∧
    (∀ i (hi : i < (rowBands h workers).length),
      (rowBands h workers)[i] =
        List.range' (rows_per_band h workers * i)
          (min (rows_per_band h workers) (h - rows_per_band h workers * i))) ∧
    (∀ i, i + 1 < (rowBands h workers).length →
      ∀ (hi : i < (rowBands h workers).length),
        (rowBands h workers)[i].length = rows_per_band h workers) := by
  have hrpb : rows_per_band h workers ≠ 0 := Nat.succ_ne_zero _
  have hrb : rowBands h workers =
      chunksOf (rows_per_band h workers) (List.range' 0 h) := by
    rw [← List.range_eq_range']
    rfl
  refine ⟨flatten_chunksOf _ hrpb _, ?_, ?_⟩
  · intro i hi
    simp only [hrb] at hi ⊢
    rw [chunksOf_range'_getElem (rows_per_band h workers) hrpb h 0 i hi]
    congr 1
    omega
  · intro i hi1 hi
    simp only [hrb] at hi1 hi ⊢
    rw [chunksOf_range'_getElem (rows_per_band h workers) hrpb h 0 i hi,
      List.length_range']
    rw [chunksOf_range'_length (rows_per_band h workers) hrpb h 0] at hi1
    set k := rows_per_band h workers with hkdef
    have h2 : i + 2 ≤ (h + k - 1) / k := hi1
    have h3 : (i + 2) * k ≤ h + k - 1 := (Nat.le_div_iff_mul_le (by omega)).mp h2
    have h4 : (i + 2) * k = k * i + k + k := by ring
    have h5 : k * i + k ≤ h := by omega
    omega

/-- Witness for C6 at the spec's example: 10 rows, 3 workers. -/
theorem claim_C6_bands_cover_witness :
    (rowBands 10 3).flatten = List.range 10 :=
  (claim_C6_bands_cover 10 3 (by norm_num)).1

/-! ### Claim C2: one band versus the Scheduler's decomposition -/

/-- The key pointwise fact: mapping pixel (col, r) through a band's local
frame — whose corners were themselves obtained by mapping (0, top) and
(w, top + height) through the full frame — gives exactly the same point as
mapping pixel (col, top + r) through the full frame.  Exact arithmetic. -/
theorem pixel_to_point_band (w h top height col r : ℕ) (u l : Cplx)
    (hw : w ≠ 0) (hh : h ≠ 0) (hheight : height ≠ 0) :
    pixel_to_point (w, height) (col, r)
      (pixel_to_point (w, h) (0, top) u l)
      (pixel_to_point (w, h) (w, top + height) u l) =
    pixel_to_point (w, h) (col, top + r) u l := by
  have hwq : (w : ℚ) ≠ 0 := Nat.cast_ne_zero.mpr hw
  have hhq : (h : ℚ) ≠ 0 := Nat.cast_ne_zero.mpr hh
  have hheightq : (height : ℚ) ≠ 0 := Nat.cast_ne_zero.mpr hheight
  simp only [pixel_to_point, Cplx.mk.injEq]
  constructor
  · push_cast
    field_simp
  · push_cast
    field_simp
    ring

/-- A band render with corners derived from the full frame equals the run
of full-frame row renders for its rows. -/
theorem render_band_rows (w h top height : ℕ) (u l : Cplx)
    (hw : w ≠ 0) (hh : h ≠ 0) :
    render (w, height)
      (pixel_to_point (w, h) (0, top) u l)
      (pixel_to_point (w, h) (w, top + height) u l) =
    (List.range height).flatMap (fun r =>
      (List.range w).map (fun col =>
        pixelByte (pixel_to_point (w, h) (col, top + r) u l))) := by
  simp only [render]
  rw [List.flatMap_def, List.flatMap_def]
  congr 1
  apply List.map_congr_left
  intro r hr
  have hheight : height ≠ 0 := by
    intro h0
    rw [h0] at hr
    simp at hr
  apply List.map_congr_left
  intro col _
  rw [pixel_to_point_band w h top height col r u l hw hh hheight]

theorem flatMap_range'_shift {β : Type*} (f : ℕ → List β) (s m : ℕ) :
    (List.range' s m).flatMap f = (List.range m).flatMap (fun r => f (s + r)) := by
  rw [List.range'_eq_map_range, List.flatMap_map]

/-- The heart of C2: processing the chunked zero buffer of w * n bytes with
band indices starting at i0 (so rows starting at rows_per_band * i0)
produces exactly the full-frame renders of rows rows_per_band * i0 … + n,
in order. -/
theorem scheduled_bands_rows (w h workers : ℕ) (u l : Cplx)
    (hw : w ≠ 0) (hh : h ≠ 0) :
    ∀ (n i0 : ℕ),
      (((chunksOf (rows_per_band h workers * w)
          (List.replicate (w * n) (0 : ℕ))).enumFrom i0).map
        (fun p => bandRender (w, h) workers u l p.1 p.2.length)).flatten =
      (List.range' (rows_per_band h workers * i0) n).flatMap (fun rowIdx =>
        (List.range w).map (fun col =>
          pixelByte (pixel_to_point (w, h) (col, rowIdx) u l))) := by
  have hkpos : rows_per_band h workers ≠ 0 := Nat.succ_ne_zero _
  intro n
  induction n using Nat.strong_induction_on with
  | _ n ih =>
    intro i0
    rcases Nat.eq_zero_or_pos n with hn | hn
    · subst hn
      rw [show List.replicate (w * 0) (0 : ℕ) = [] from by simp, chunksOf_nil]
      rfl
    · have hwn : 0 < w * n := Nat.mul_pos (Nat.pos_of_ne_zero hw) hn
      have hne : List.replicate (w * n) (0 : ℕ) ≠ [] :=
        List.ne_nil_of_length_pos (by rw [List.length_replicate]; exact hwn)
      rw [chunksOf_cons_eq _ _ (Nat.mul_ne_zero hkpos hw) hne,
        List.take_replicate, List.drop_replicate, List.enumFrom_cons,
        List.map_cons, List.flatten_cons]
      have hminlen : (List.replicate
          (min (rows_per_band h workers * w) (w * n)) (0 : ℕ)).length =
          w * min (rows_per_band h workers) n := by
        rw [List.length_replicate, mul_comm (rows_per_band h workers) w,
          Nat.mul_min_mul_left]
      have hdroplen : w * n - rows_per_band h workers * w =
          w * (n - rows_per_band h workers) := by
        rw [mul_comm (rows_per_band h workers) w, ← Nat.mul_sub]
      have hmpos : min (rows_per_band h workers) n ≠ 0 := by
        rcases Nat.le_total (rows_per_band h workers) n with hle | hle
        · rw [min_eq_left hle]
          exact hkpos
        · rw [min_eq_right hle]
          omega
      have hhead : bandRender (w, h) workers u l i0
          (List.replicate (min (rows_per_band h workers * w) (w * n)) (0 : ℕ)).length =
          (List.range' (rows_per_band h workers * i0)
            (min (rows_per_band h workers) n)).flatMap (fun rowIdx =>
            (List.range w).map (fun col =>
              pixelByte (pixel_to_point (w, h) (col, rowIdx) u l))) := by
        rw [hminlen]
        simp only [bandRender]
        rw [Nat.mul_div_cancel_left _ (Nat.pos_of_ne_zero hw)]
        rw [render_band_rows w h (rows_per_band h workers * i0)
          (min (rows_per_band h workers) n) u l hw hh]
        rw [flatMap_range'_shift]
      rw [hhead, hdroplen, ih (n - rows_per_band h workers) (by omega) (i0 + 1)]
      have hsplit : List.range' (rows_per_band h workers * i0) n =
          List.range' (rows_per_band h workers * i0)
            (min (rows_per_band h workers) n) ++
          List.range' (rows_per_band h workers * (i0 + 1))
            (n - rows_per_band h workers) := by
        rcases Nat.le_total (rows_per_band h workers) n with hle | hle
        · rw [min_eq_left hle]
          have hstart : rows_per_band h workers * i0 + rows_per_band h workers =
              rows_per_band h workers * (i0 + 1) := (Nat.mul_succ _ _).symm
          rw [← hstart, List.range'_append_1]
          congr 1
          omega
        · rw [min_eq_right hle, show n - rows_per_band h workers = 0 by omega]
          rw [show List.range' (rows_per_band h workers * (i0 + 1)) 0 = [] from rfl,
            List.append_nil]
      rw [hsplit, List.flatMap_append]

/-- C2: for positive width, height and worker count, the Scheduler's
decomposition into bands — each rendered with corners obtained by mapping
its top-left pixel (0, top) and bottom-right pixel (width, top + height)
through the full-image bounds and viewport — produces a buffer identical to
rendering the whole image as one band. -/
theorem claim_C2_scheduler_refines_render (w h workers : ℕ) (u l : Cplx)
    (hw : 0 < w) (hh : 0 < h) (hworkers : 0 < workers) :
    scheduledRender (w, h) workers u l = render (w, h) u l := by
  have hmain := scheduled_bands_rows w h workers u l (by omega) (by omega) h 0
  rw [Nat.mul_zero, ← List.range_eq_range'] at hmain
  simp only [scheduledRender, render]
  exact hmain

/-- Witness for C2 at a 3 × 2 image over an escaping viewport, with the
code's 8 workers. -/
theorem claim_C2_scheduler_refines_render_witness :
    scheduledRender (3, 2) 8 ⟨3, 1⟩ ⟨4, 0⟩ = render (3, 2) ⟨3, 1⟩ ⟨4, 0⟩ :=
  claim_C2_scheduler_refines_render 3 2 8 ⟨3, 1⟩ ⟨4, 0⟩
    (by norm_num) (by norm_num) (by norm_num)

/-! ### Claim C8: the dimension argument -/

/-- What a successful findIdx? means: the list splits at the first match. -/
theorem findIdx?_some_split (p : Char → Bool) :
    ∀ (s : List Char) (start i : ℕ), s.findIdx? p start = some i →
      start ≤ i ∧ ∃ left c right,
        s = left ++ c :: right ∧ left.length = i - start ∧ p c = true ∧
        ∀ d ∈ left, p d = false := by
  intro s
  induction s with
  | nil =>
    intro start i hfind
    rw [List.findIdx?_nil] at hfind
    exact Option.noConfusion hfind
  | cons a t ih =>
    intro start i hfind
    rw [List.findIdx?_cons] at hfind
    by_cases hpa : p a = true
    · rw [if_pos hpa] at hfind
      have hi : i = start := (Option.some.injEq _ _).mp hfind.symm
      subst hi
      exact ⟨le_rfl, [], a, t, rfl, by simp, hpa, by simp⟩
    · rw [if_neg hpa] at hfind
      obtain ⟨hle, left, c, right, hsplit, hlen, hpc, hnone⟩ := ih (start + 1) i hfind
      refine ⟨by omega, a :: left, c, right, by simp [hsplit], ?_, hpc, ?_⟩
      · rw [List.length_cons]
        omega
      · intro d hd
        rcases List.mem_cons.mp hd with hd | hd
        · rw [hd]
          exact eq_false_of_ne_true hpa
        · exact hnone d hd

/-- A value accepted by the usize parser is below 2^64 and comes from a
nonempty all-digit string after the optional '+'. -/
theorem parseUsize_some_iff (s : List Char) (v : ℕ) :
    parseUsize s = some v ↔
      (stripPlus s ≠ [] ∧ (stripPlus s).all Char.isDigit = true ∧
       digitsToNat (stripPlus s) < 2 ^ 64 ∧ v = digitsToNat (stripPlus s)) := by
  unfold parseUsize
  split_ifs with hcond
  · constructor
    · intro hsome
      exact ⟨hcond.1, hcond.2.1, hcond.2.2, ((Option.some.injEq _ _).mp hsome).symm⟩
    · intro hall
      rw [hall.2.2.2]
  · constructor
    · intro hcontra
      simp at hcontra
    · intro hall
      exact absurd ⟨hall.1, hall.2.1, hall.2.2.1⟩ hcond

/-- Counterexample to C8: the parser accepts "0x5", whose width 0 is not a
positive integer, so the render pipeline can receive width = 0. -/
theorem claim_C8_counterexample :
    parse_pair ['0', 'x', '5'] 'x' = some (0, 5) ∧ ¬ (0 < 0) := by
  constructor
  · decide
  · omega

/-- C8 (amended): a successful dimension parse means the argument splits at
its first 'x' into two sides, each a nonempty run of ASCII digits after an
optional leading '+', with value below 2^64 — zero included: positivity is
not validated.  Parse failure is fatal in main (expect), so the pipeline
receives exactly the values accepted here. -/
theorem claim_C8_parse_pair_accepts (s : List Char) (x y : ℕ)
    (hparse : parse_pair s 'x' = some (x, y)) :
    ∃ left right : List Char,
      s = left ++ 'x' :: right ∧
      (∀ c ∈ left, c ≠ 'x') ∧
      stripPlus left ≠ [] ∧ (stripPlus left).all Char.isDigit = true ∧
      x = digitsToNat (stripPlus left) ∧ x < 2 ^ 64 ∧
      stripPlus right ≠ [] ∧ (stripPlus right).all Char.isDigit = true ∧
      y = digitsToNat (stripPlus right) ∧ y < 2 ^ 64 := by
  simp only [parse_pair, Option.bind_eq_some, Option.map_eq_some'] at hparse
  obtain ⟨index, hfind, a, h1, b, h2, hab⟩ := hparse
  obtain ⟨ha, hb⟩ := (Prod.mk.injEq _ _ _ _).mp hab
  rw [ha] at h1
  rw [hb] at h2
  obtain ⟨-, left, c, right, hsplit, hlen, hpc, hnone⟩ :=
    findIdx?_some_split (fun c => c == 'x') s 0 index hfind
  have hcx : c = 'x' := beq_iff_eq.mp hpc
  subst hcx
  have hleneq : left.length = index := by omega
  have htake : s.take index = left := by
    rw [hsplit, ← hleneq, List.take_left]
  have hdrop : s.drop (index + 1) = right := by
    rw [hsplit, show left ++ 'x' :: right = (left ++ ['x']) ++ right from by simp,
      show index + 1 = (left ++ ['x']).length from by simp [hleneq],
      List.drop_left]
  rw [htake] at h1
  rw [hdrop] at h2
  obtain ⟨hl1, hl2, hl3, hl4⟩ := (parseUsize_some_iff left x).mp h1
  obtain ⟨hr1, hr2, hr3, hr4⟩ := (parseUsize_some_iff right y).mp h2
  refine ⟨left, right, hsplit, ?_, hl1, hl2, hl4, by omega, hr1, hr2, hr4, by omega⟩
  intro d hd
  intro hdx
  have := hnone d hd
  rw [hdx] at this
  simp at this

/-- Witness for C8 at "10x20": it decomposes as "10", 'x', "20". -/
theorem claim_C8_parse_pair_accepts_witness :
    ∃ left right : List Char,
      ['1', '0', 'x', '2', '0'] = left ++ 'x' :: right ∧
      (∀ c ∈ left, c ≠ 'x') ∧
      stripPlus left ≠ [] ∧ (stripPlus left).all Char.isDigit = true ∧
      10 = digitsToNat (stripPlus left) ∧ 10 < 2 ^ 64 ∧
      stripPlus right ≠ [] ∧ (stripPlus right).all Char.isDigit = true ∧
      20 = digitsToNat (stripPlus right) ∧ 20 < 2 ^ 64 :=
  claim_C8_parse_pair_accepts ['1', '0', 'x', '2', '0'] 10 20 (by decide)

end Mandelbrot
